import Mathlib

/-!
# Verification of the sales-dashboard filter/aggregate/forecast pipeline

Shallow embedding of `src/odoo_sales/app.py` (the richer of the two
near-duplicate dashboards).  One row of the extracted fact table
(`OrderLineFact`) is modelled as a record; calendar dates are modelled as
integer day numbers (the query casts `date_order::date`, so a date is a
point on the day grid and pandas `Timestamp` comparison coincides with
integer comparison); monetary amounts and quantities are modelled as
rationals (the pipeline's claims are about its aggregation structure, not
about binary floating-point rounding).  Nullable columns (`salesperson`
from the `LEFT JOIN res_users`, `category` from the
`LEFT JOIN product_category`) are `Option String`; the inner joins make
`customer`, `product`, `order_number` non-null.
-/

namespace SaleDashboard

/-- Order state, restricted by the extractor's
`WHERE so.state IN ('sale','done','draft','sent','cancel')` clause
(app.py line 49). -/
inductive OState where
  | draft | sent | sale | done | cancel
deriving DecidableEq, Repr

/-- The string pandas sees in the `state` column. -/
def OState.str : OState → String
  | .draft => "draft"
  | .sent => "sent"
  | .sale => "sale"
  | .done => "done"
  | .cancel => "cancel"

/-- One row of the `load_sales_data()` result (app.py lines 30-51). -/
structure OrderLineFact where
  order_id : Int
  order_number : String
  order_date : Int
  state : OState
  customer : String
  salesperson : Option String
  product_uom_qty : ℚ
  price_total : ℚ
  product : String
  category : Option String
deriving DecidableEq, Repr

/-- The sidebar filter state (app.py lines 63-64, 69, 74, 79):
a date interval plus the three multiselect selections.  An empty
selection list means "no restriction", matching the `if selected:`
guards. -/
structure FilterCriteria where
  start_date : Int
  end_date : Int
  salespeople : List String
  customers : List String
  categories : List String
deriving DecidableEq, Repr

/-! ## Filter (app.py lines 66-81)

`filtered_df` is built by four successive boolean-mask selections:
the date mask, then one `isin` mask per non-empty multiselect.
pandas `Series.isin` evaluates to `False` on a null (`NaN`) entry, so a
row whose nullable field is null is dropped as soon as that restriction
is active; this is the `Option.elim false` below. -/

/-- `s.isin(sel)` for a non-nullable string column. -/
def isinStr (sel : List String) (v : String) : Bool := sel.contains v

/-- `s.isin(sel)` for a nullable string column: null is never a member. -/
def isinOpt (sel : List String) (v : Option String) : Bool :=
  v.elim false (fun s => sel.contains s)

/-- The date mask of line 66:
`(df["order_date"] >= start) & (df["order_date"] <= end)`. -/
def dateMask (c : FilterCriteria) (r : OrderLineFact) : Bool :=
  decide (c.start_date ≤ r.order_date) && decide (r.order_date ≤ c.end_date)

/-- `filtered_df` (app.py lines 66-81): date mask, then the three
conditional `isin` selections in source order. -/
def filtered (c : FilterCriteria) (df : List OrderLineFact) : List OrderLineFact :=
  let f1 := df.filter (dateMask c)
  let f2 := if c.salespeople.isEmpty then f1
            else f1.filter (fun r => isinOpt c.salespeople r.salesperson)
  let f3 := if c.customers.isEmpty then f2
            else f2.filter (fun r => isinStr c.customers r.customer)
  if c.categories.isEmpty then f3
  else f3.filter (fun r => isinOpt c.categories r.category)

/-! ## KPI metrics (app.py lines 92-96) -/

/-- Number of distinct values of a column (`Series.nunique`). -/
def nuniqueBy {α β : Type} [DecidableEq β] (f : α → β) (rows : List α) : Nat :=
  ((rows.map f).dedup).length

/-- `total_sales = filtered_df["price_total"].sum()` (line 92). -/
def total_sales (rows : List OrderLineFact) : ℚ :=
  (rows.map (fun r => r.price_total)).sum

/-- `total_orders = filtered_df["order_number"].nunique()` (line 93). -/
def total_orders (rows : List OrderLineFact) : Nat :=
  nuniqueBy (fun r => r.order_number) rows

/-- `avg_order_value = total_sales / total_orders if total_orders else 0`
(line 94). -/
def avg_order_value (rows : List OrderLineFact) : ℚ :=
  if total_orders rows ≠ 0 then total_sales rows / (total_orders rows : ℚ)
  else 0

/-- `total_customers = filtered_df["customer"].nunique()` (line 95). -/
def total_customers (rows : List OrderLineFact) : Nat :=
  nuniqueBy (fun r => r.customer) rows

/-- The customers of the filtered frame, first occurrence order
(the groups of `filtered_df.groupby("customer")`). -/
def customersOf (rows : List OrderLineFact) : List String :=
  (rows.map (fun r => r.customer)).dedup

/-- Minimum of a list of days; the groups fed to it are non-empty, so the
`[]` value is never reached by the pipeline. -/
def minDay : List Int → Int
  | [] => 0
  | d :: ds => ds.foldl min d

/-- The order dates of one customer's rows within `rows`. -/
def datesOfCustomer (rows : List OrderLineFact) (cst : String) : List Int :=
  (rows.filter (fun r => r.customer = cst)).map (fun r => r.order_date)

/-- `new_customers` (line 96):
`(filtered_df.groupby("customer")["order_date"].min() >= start).sum()` —
note the group-by runs over the *filtered* frame. -/
def new_customers (c : FilterCriteria) (rows : List OrderLineFact) : Nat :=
  ((customersOf rows).filter
    (fun cst => decide (c.start_date ≤ minDay (datesOfCustomer rows cst)))).length

/-! ## Sorting primitives

pandas `DataFrame.groupby` (with its default `sort=True`) emits one group
per distinct key, in ascending key order; `Series.sort_values` reorders by
value.  Both are modelled by one stable insertion sort parameterized by a
boolean "goes-before-or-equal" test: an element of the unsorted prefix is
inserted in front of the first element it compares `le` to, so elements
comparing equal keep their original relative order. -/

/-- Stable insertion of `x` into `l` (assumed sorted for `le`). -/
def insBy {α : Type} (le : α → α → Bool) (x : α) : List α → List α
  | [] => [x]
  | y :: ys => if le x y then x :: y :: ys else y :: insBy le x ys

/-- Stable insertion sort for `le`. -/
def sortBy' {α : Type} (le : α → α → Bool) : List α → List α
  | [] => []
  | x :: xs => insBy le x (sortBy' le xs)

/-- Ascending comparison used by `groupby` on a string key column. -/
def strLe (a b : String) : Bool := decide (a ≤ b)

/-! ## Top-N rankings (app.py lines 126, 134)

`filtered_df.groupby(key)["price_total"].sum()` yields one summed value
per distinct key, keys ascending; `.sort_values(ascending=False)` then
sorts by value descending (modelled as a stable descending sort, the
realized numpy order on these inputs); `.head(10)` takes the first 10. -/

/-- Sum of `price_total` over a row list. -/
def sumPrice (rows : List OrderLineFact) : ℚ :=
  (rows.map (fun r => r.price_total)).sum

/-- `filtered_df.groupby(key)["price_total"].sum()` for a string key:
distinct keys in ascending order, each with its group's sum. -/
def groupSumBy (key : OrderLineFact → String) (rows : List OrderLineFact) :
    List (String × ℚ) :=
  (sortBy' strLe ((rows.map key).dedup)).map
    (fun k => (k, sumPrice (rows.filter (fun r => key r = k))))

/-- `.sort_values(ascending=False)` on a keyed value series. -/
def sortValsDesc (l : List (String × ℚ)) : List (String × ℚ) :=
  sortBy' (fun p q => decide (q.2 ≤ p.2)) l

/-- `top_customers` (line 126). -/
def top_customers (rows : List OrderLineFact) : List (String × ℚ) :=
  (sortValsDesc (groupSumBy (fun r => r.customer) rows)).take 10

/-- `top_products` (line 134). -/
def top_products (rows : List OrderLineFact) : List (String × ℚ) :=
  (sortValsDesc (groupSumBy (fun r => r.product) rows)).take 10

/-! ## Sales funnel (app.py lines 158-161) -/

/-- The five states in the alphabetical order `groupby("state")` uses for
its group keys (`cancel < done < draft < sale < sent`). -/
def statesAlpha : List OState := [.cancel, .done, .draft, .sale, .sent]

/-- `stage_order` (line 159). -/
def stage_order : List OState := [.draft, .sent, .sale, .done, .cancel]

/-- Position of a state in `stage_order`: the categorical code that
line 161's `sort_values("state")` sorts by. -/
def stageRank : OState → Nat
  | .draft => 0
  | .sent => 1
  | .sale => 2
  | .done => 3
  | .cancel => 4

/-- Does some row of `rows` carry state `s`? -/
def presentState (rows : List OrderLineFact) (s : OState) : Bool :=
  rows.any (fun r => r.state = s)

/-- Distinct `order_id` count among the rows in state `s`
(`groupby("state")["order_id"].nunique()`). -/
def nuniqueOrders (rows : List OrderLineFact) (s : OState) : Nat :=
  nuniqueBy (fun r => r.order_id) (rows.filter (fun r => r.state = s))

/-- The `groupby("state")["order_id"].nunique()` frame of line 158:
one entry per state present, alphabetical key order.  (For a 5-value
enum, the distinct present keys in ascending order are exactly the
sorted universe filtered to the present ones.) -/
def funnel_groups (rows : List OrderLineFact) : List (OState × Nat) :=
  (statesAlpha.filter (presentState rows)).map (fun s => (s, nuniqueOrders rows s))

/-- `funnel_df` after lines 160-161: the same frame re-sorted by the
categorical `stage_order` code. -/
def funnel_df (rows : List OrderLineFact) : List (OState × Nat) :=
  sortBy' (fun p q => decide (stageRank p.1 ≤ stageRank q.1)) (funnel_groups rows)

/-! ## Forecast (app.py lines 179-188) -/

/-- `daily_sales_forecast` before the `day_number` column (line 179):
group by `order_date` (keys ascending), sum `price_total`. -/
def daily_sales (rows : List OrderLineFact) : List (Int × ℚ) :=
  (sortBy' (fun a b => decide (a ≤ b)) ((rows.map (fun r => r.order_date)).dedup)).map
    (fun d => (d, sumPrice (rows.filter (fun r => r.order_date = d))))

/-- The regression design points (lines 180-182): `day_number` is the
date's day offset from the column minimum, paired with the daily sum. -/
def forecastPoints (rows : List OrderLineFact) : List (ℚ × ℚ) :=
  let ds := daily_sales rows
  let m := minDay (ds.map Prod.fst)
  ds.map (fun p => (((p.1 - m : Int) : ℚ), p.2))

/-- Mean of the x column. -/
def xbarOf (pts : List (ℚ × ℚ)) : ℚ := (pts.map Prod.fst).sum / pts.length

/-- Mean of the y column. -/
def ybarOf (pts : List (ℚ × ℚ)) : ℚ := (pts.map Prod.snd).sum / pts.length

/-- Centered sum of squares of x. -/
def sxxOf (pts : List (ℚ × ℚ)) : ℚ :=
  (pts.map (fun p => (p.1 - xbarOf pts) ^ 2)).sum

/-- Centered cross sum of x and y. -/
def sxyOf (pts : List (ℚ × ℚ)) : ℚ :=
  (pts.map (fun p => (p.1 - xbarOf pts) * (p.2 - ybarOf pts))).sum

/-- The fitted coefficient: the least-squares slope, `0` when the
feature column is constant (the minimum-norm `lstsq` solution on
centered data). -/
def slopeOf (pts : List (ℚ × ℚ)) : ℚ :=
  if sxxOf pts = 0 then 0 else sxyOf pts / sxxOf pts

/-- The fitted intercept. -/
def interceptOf (pts : List (ℚ × ℚ)) : ℚ :=
  ybarOf pts - slopeOf pts * xbarOf pts

/-- `sklearn.linear_model.LinearRegression().fit(X, y)` for a single
feature with an intercept (lines 183-184), returning
`(intercept_, coef_)`.  On zero samples `fit` raises `ValueError`,
modelled as `none`. -/
def fitLinReg (pts : List (ℚ × ℚ)) : Option (ℚ × ℚ) :=
  match pts with
  | [] => none
  | _ :: _ => some (interceptOf pts, slopeOf pts)

/-- `X[-1][0]`: the last (and, dates being sorted ascending, largest)
day number of the design matrix. -/
def lastX (pts : List (ℚ × ℚ)) : ℚ :=
  ((pts.getLast?).map Prod.fst).getD 0

/-- Residual sum of squares of the line `y = a + b·x` over `pts`. -/
def sse (pts : List (ℚ × ℚ)) (a b : ℚ) : ℚ :=
  (pts.map (fun p => (p.2 - (a + b * p.1)) ^ 2)).sum

/-- `np.arange(x+1, x+n+1)`: the `n` successive values after `x`. -/
def futureXs (x : ℚ) : Nat → List ℚ
  | 0 => []
  | n + 1 => (x + 1) :: futureXs (x + 1) n

/-- Lines 185-186: predict the 30 day numbers
`np.arange(X[-1][0]+1, X[-1][0]+31)` with the fitted line, keyed by day
number.  `none` propagates the `fit` fault on an empty design matrix
(with no rows, line 185's `X[-1]` would also raise `IndexError`). -/
def forecast (rows : List OrderLineFact) : Option (List (ℚ × ℚ)) :=
  match fitLinReg (forecastPoints rows) with
  | none => none
  | some (a, b) =>
    some ((futureXs (lastX (forecastPoints rows)) 30).map (fun x => (x, a + b * x)))

/-! ## CSV export (app.py line 215)

`filtered_df.to_csv(index=False)`: a header line with the column names in
query-select order, then one line per row, fields comma-separated,
each line terminated by `\n`, a field quoted (with `"` doubled) exactly
when it contains a delimiter, quote or line-break character
(`csv.QUOTE_MINIMAL`).  Text is modelled as `List Char`; each field goes
through a string formatter first (nulls print as the empty field), which
is the "modulo exact-decimal string formatting" caveat of the spec. -/

/-- Does a field need quoting under `QUOTE_MINIMAL`? -/
def needsQuote (s : List Char) : Bool :=
  s.any (fun c => c = ',' || c = '"' || c = '\n' || c = '\r')

/-- Double every quote character. -/
def escQ : List Char → List Char
  | [] => []
  | c :: cs => if c = '"' then '"' :: '"' :: escQ cs else c :: escQ cs

/-- Render one field, quoting it only when needed. -/
def renderCell (s : List Char) : List Char :=
  if needsQuote s then '"' :: (escQ s ++ ['"']) else s

/-- Render one line: fields joined by commas. -/
def renderRow : List (List Char) → List Char
  | [] => []
  | [c] => renderCell c
  | c :: c' :: cs => renderCell c ++ ',' :: renderRow (c' :: cs)

/-- Render the whole file: every line (header included) ends in `\n`. -/
def renderCsv : List (List (List Char)) → List Char
  | [] => []
  | r :: rs => renderRow r ++ '\n' :: renderCsv rs

/-- The header, in the column order of the extractor's SELECT list. -/
def headerCells : List (List Char) :=
  [ "order_id".toList, "order_number".toList, "order_date".toList,
    "state".toList, "customer".toList, "salesperson".toList,
    "product_uom_qty".toList, "price_total".toList, "product".toList,
    "category".toList ]

/-- One row's serialized fields, in header order; a null prints as the
empty field, numbers and dates through their string formatters. -/
def csvCells (r : OrderLineFact) : List (List Char) :=
  [ (toString r.order_id).toList, r.order_number.toList,
    (toString r.order_date).toList, (r.state.str).toList,
    r.customer.toList, (r.salesperson.getD "").toList,
    (toString r.product_uom_qty).toList, (toString r.price_total).toList,
    r.product.toList, (r.category.getD "").toList ]

/-- `filtered_df.to_csv(index=False)` over the modelled rows. -/
def to_csv (rows : List OrderLineFact) : List Char :=
  renderCsv (headerCells :: rows.map csvCells)

/-! ### Re-parsing the delimited text

A standard CSV reader: a field is either quoted (content up to the next
undoubled quote, `""` reading back as `"`) or the run of characters up to
the next comma or line break; fields are comma-separated; lines are
`\n`-separated.  The line/field loops run on explicit fuel (one unit per
field), supplied as the input length by `parseCsv`; `none` is a parse
error. -/

/-- Read a quoted field body (the opening quote already consumed):
returns the field and the text after the closing quote, with `""`
reading back as one `"`. -/
def parseQuoted : List Char → Option (List Char × List Char)
  | [] => none
  | c :: cs =>
    if c = '"' then
      match cs with
      | c' :: cs' =>
        if c' = '"' then (parseQuoted cs').map (fun p => ('"' :: p.1, p.2))
        else some ([], cs)
      | [] => some ([], [])
    else (parseQuoted cs).map (fun p => (c :: p.1, p.2))

/-- Read an unquoted field: everything up to the next `,` or `\n`
(neither consumed). -/
def parseUnquoted : List Char → List Char × List Char
  | [] => ([], [])
  | c :: cs =>
    if c = ',' ∨ c = '\n' then ([], c :: cs)
    else
      let p := parseUnquoted cs
      (c :: p.1, p.2)

/-- Read one field. -/
def parseCell : List Char → Option (List Char × List Char)
  | c :: cs =>
    if c = '"' then parseQuoted cs else some (parseUnquoted (c :: cs))
  | [] => some (parseUnquoted [])

/-- Read one line of fields (consuming its terminating `\n`, if any). -/
def parseRowF : Nat → List Char → Option (List (List Char) × List Char)
  | 0, _ => none
  | fuel + 1, s =>
    match parseCell s with
    | none => none
    | some (cell, rest) =>
      match rest with
      | ',' :: r =>
        (parseRowF fuel r).map (fun p => (cell :: p.1, p.2))
      | '\n' :: r => some ([cell], r)
      | [] => some ([cell], [])
      | _ => none

/-- Read all lines. -/
def parseRowsF : Nat → List Char → Option (List (List (List Char)))
  | _, [] => some []
  | 0, _ => none
  | fuel + 1, s =>
    match parseRowF (fuel + 1) s with
    | none => none
    | some (cells, rest) =>
      (parseRowsF fuel rest).map (fun rows => cells :: rows)

/-- Parse a CSV file back into its lines of fields. -/
def parseCsv (s : List Char) : Option (List (List (List Char))) :=
  parseRowsF s.length s

/-! ## Claim-side formalizations

The following definitions transcribe the spec's wording where it differs
from (or composes differently than) the code, so that each claim can be
stated exactly as written and compared with the code's value. -/

/-- The claim's single row predicate for the filter (spec §4.2 / §8):
in the inclusive date window, and a member of each non-empty selection
set (null field values failing an active restriction). -/
def passesAllFilters (c : FilterCriteria) (r : OrderLineFact) : Bool :=
  decide (c.start_date ≤ r.order_date) && decide (r.order_date ≤ c.end_date) &&
  (c.salespeople.isEmpty || isinOpt c.salespeople r.salesperson) &&
  (c.customers.isEmpty || isinStr c.customers r.customer) &&
  (c.categories.isEmpty || isinOpt c.categories r.category)

/-- The value claim C6 asserts for `new_customers`: the count of (filtered)
customers whose minimum `order_date` across **all of their rows in the
fact set** is at least the window start — customers with no orders dated
before the window. -/
def new_customers_claim (c : FilterCriteria) (df : List OrderLineFact) : Nat :=
  ((customersOf (filtered c df)).filter
    (fun cst => decide (c.start_date ≤ minDay (datesOfCustomer df cst)))).length

/-- The top-10 ranking claim C7 asserts: groups in their original
encounter order, stably sorted descending by sum, first 10. -/
def claimTopBy (key : OrderLineFact → String) (rows : List OrderLineFact) :
    List (String × ℚ) :=
  (sortValsDesc (((rows.map key).dedup).map
    (fun k => (k, sumPrice (rows.filter (fun r => key r = k)))))).take 10

/-- The funnel claim C8 asserts: the fixed stage sequence restricted to
the states present, absent states omitted. -/
def funnel_claim (rows : List OrderLineFact) : List (OState × Nat) :=
  stage_order.filterMap
    (fun s => if presentState rows s then some (s, nuniqueOrders rows s) else none)

/-- The lexicographic order realized by the code's top-10 rankings:
strictly larger sum first; for equal sums, ascending key. -/
def tieOrder (p q : String × ℚ) : Prop := q.2 < p.2 ∨ (p.2 = q.2 ∧ p.1 < q.1)

/-! ## Concrete scenario inputs used by the witnesses and evaluations -/

/-- Row constructor in column order. -/
def mkRow (oid : Int) (onum : String) (d : Int) (s : OState) (cst : String)
    (sp : Option String) (q p : ℚ) (prod : String) (cat : Option String) :
    OrderLineFact :=
  ⟨oid, onum, d, s, cst, sp, q, p, prod, cat⟩

/-- A one-row fact set whose only date is day 5. -/
def c2facts : List OrderLineFact := [mkRow 1 "S1" 5 .sale "x" none 1 9 "p" none]

/-- A window (days 0..1) that eliminates every row of `c2facts`. -/
def c2crit : FilterCriteria := ⟨0, 1, [], [], []⟩

/-- A one-row fact set: a single order line on day 3 worth 7. -/
def c4facts : List OrderLineFact := [mkRow 1 "S1" 3 .sale "x" none 1 7 "p" none]

/-- A window keeping the single `c4facts` row: one distinct date. -/
def c4crit : FilterCriteria := ⟨0, 9, [], [], []⟩

/-- A window excluding the single `c4facts` row: zero distinct dates. -/
def c4empty : FilterCriteria := ⟨4, 9, [], [], []⟩

/-- Two order lines of distinct orders on one day, totals 10 and 4. -/
def c5facts : List OrderLineFact :=
  [mkRow 1 "S1" 0 .sale "x" none 1 10 "p" none,
   mkRow 2 "S2" 0 .sale "y" none 1 4 "p" none]

/-- The full-span window for `c5facts`. -/
def c5crit : FilterCriteria := ⟨0, 0, [], [], []⟩

/-- Customer `acme` orders on day 0 and on day 10. -/
def c6facts : List OrderLineFact :=
  [mkRow 1 "S1" 0 .sale "acme" none 1 10 "p" none,
   mkRow 2 "S2" 10 .sale "acme" none 1 20 "p" none]

/-- A window (days 5..20) starting after `acme`'s first order. -/
def c6crit : FilterCriteria := ⟨5, 20, [], [], []⟩

/-- Two single-line orders with equal totals, customer `"b"`
encountered before customer `"a"`. -/
def c7rows : List OrderLineFact :=
  [mkRow 1 "S1" 0 .sale "b" none 1 5 "pX" none,
   mkRow 2 "S2" 1 .draft "a" none 1 5 "pY" none]

/-- A fact set whose states are exactly `{sale, draft}`. -/
def c8rows : List OrderLineFact := c7rows

/-- Two order lines: day 0 worth 100 and day 1 worth 200. -/
def w3facts : List OrderLineFact :=
  [mkRow 1 "S1" 0 .sale "A" none 1 100 "p" none,
   mkRow 2 "S2" 1 .sale "A" none 1 200 "p" none]

/-- The full-span window for `w3facts`. -/
def w3crit : FilterCriteria := ⟨0, 1, [], [], []⟩

/-! # Helper lemmas -/

/-- The four successive masks of `filtered` collapse into one filter by
the claim's combined row predicate. -/
theorem filtered_eq_filter (c : FilterCriteria) (df : List OrderLineFact) :
    filtered c df = df.filter (passesAllFilters c) := by
  unfold filtered
  cases h1 : c.salespeople.isEmpty <;> cases h2 : c.customers.isEmpty <;>
    cases h3 : c.categories.isEmpty <;>
    simp only [h1, h2, h3, Bool.false_eq_true, if_true, if_false, ite_true, ite_false,
      List.filter_filter] <;>
    · apply List.filter_congr
      intro r _
      simp [passesAllFilters, dateMask, h1, h2, h3, Bool.and_assoc, Bool.and_comm,
        Bool.and_left_comm]

/-- Rows surviving the filter satisfy the combined predicate. -/
theorem passes_of_mem_filtered {c : FilterCriteria} {df : List OrderLineFact}
    {r : OrderLineFact} (h : r ∈ filtered c df) : passesAllFilters c r = true := by
  rw [filtered_eq_filter] at h
  exact (List.mem_filter.mp h).2

/-- Rows surviving the filter are inside the date window. -/
theorem start_le_of_mem_filtered {c : FilterCriteria} {df : List OrderLineFact}
    {r : OrderLineFact} (h : r ∈ filtered c df) : c.start_date ≤ r.order_date := by
  have hp := passes_of_mem_filtered h
  simp only [passesAllFilters, Bool.and_eq_true, decide_eq_true_eq] at hp
  exact hp.1.1.1.1

/-- A lower bound on every element is a lower bound on `minDay`. -/
theorem minDay_ge {a : Int} :
    ∀ {l : List Int}, l ≠ [] → (∀ d ∈ l, a ≤ d) → a ≤ minDay l := by
  have key : ∀ (ds : List Int) (d : Int), a ≤ d → (∀ e ∈ ds, a ≤ e) →
      a ≤ ds.foldl min d := by
    intro ds
    induction ds with
    | nil => intro d hd _; simpa using hd
    | cons e es ih =>
      intro d hd hall
      simp only [List.foldl_cons]
      exact ih (min d e) (le_min hd (hall e (by simp)))
        (fun x hx => hall x (by simp [hx]))
  intro l hne hall
  match l, hne with
  | d :: ds, _ =>
    exact key ds d (hall d (by simp)) (fun x hx => hall x (by simp [hx]))

/-! # Claim theorems -/

/-- C1: for every fact set and filter criteria, the KPI `total_sales`
equals the sum of `line_total` (`price_total`) over exactly the rows
passing all active filter predicates: inside the inclusive date window
and, for each non-empty selection set, with a field value that is a
member (null values dropped once the restriction is active). -/
theorem total_sales_exact (c : FilterCriteria) (df : List OrderLineFact) :
    total_sales (filtered c df) =
      ((df.filter (passesAllFilters c)).map (fun r => r.price_total)).sum := by
  rw [total_sales, filtered_eq_filter]

/-- C10: filtering only selects rows — every output row is an input row
with all field values unchanged and the relative input order is
preserved (the filtered frame is a sublist of the input frame). -/
theorem filtered_selects_rows (c : FilterCriteria) (df : List OrderLineFact) :
    (filtered c df).Sublist df ∧ ∀ r ∈ filtered c df, r ∈ df := by
  have hs : (filtered c df).Sublist df := by
    rw [filtered_eq_filter]; exact List.filter_sublist df
  exact ⟨hs, fun r hr => hs.mem hr⟩

/-- C5: `avg_order_value` is exactly `total_sales / total_orders` when
`total_orders > 0` (and the division is exact: multiplying back by
`total_orders` recovers `total_sales`), and exactly `0` when
`total_orders = 0`; the guard means no division by zero is performed. -/
theorem avg_order_value_ok :
    (∀ (c : FilterCriteria) (df : List OrderLineFact),
        total_orders (filtered c df) ≠ 0 →
        avg_order_value (filtered c df)
            = total_sales (filtered c df) / (total_orders (filtered c df) : ℚ) ∧
        avg_order_value (filtered c df) * (total_orders (filtered c df) : ℚ)
            = total_sales (filtered c df)) ∧
    (∀ (c : FilterCriteria) (df : List OrderLineFact),
        total_orders (filtered c df) = 0 → avg_order_value (filtered c df) = 0) := by
  constructor
  · intro c df h
    have hcast : ((total_orders (filtered c df) : ℚ)) ≠ 0 := by exact_mod_cast h
    refine ⟨by simp [avg_order_value, h], ?_⟩
    simp only [avg_order_value, h, ne_eq, not_false_eq_true, if_true]
    exact div_mul_cancel₀ _ hcast
  · intro c df h
    simp [avg_order_value, h]

/-- Witness for C5 at concrete inputs: two distinct orders totalling 14
(average 7), and a window eliminating every row (average 0). -/
theorem avg_order_value_ok_witness :
    (total_orders (filtered c5crit c5facts) ≠ 0 ∧
      avg_order_value (filtered c5crit c5facts)
        = total_sales (filtered c5crit c5facts) / (total_orders (filtered c5crit c5facts) : ℚ) ∧
      avg_order_value (filtered c5crit c5facts) * (total_orders (filtered c5crit c5facts) : ℚ)
        = total_sales (filtered c5crit c5facts)) ∧
    (total_orders (filtered c2crit c2facts) = 0 ∧
      avg_order_value (filtered c2crit c2facts) = 0) :=
  ⟨⟨by decide, (avg_order_value_ok.1 c5crit c5facts (by decide)).1,
    (avg_order_value_ok.1 c5crit c5facts (by decide)).2⟩,
   by decide, avg_order_value_ok.2 c2crit c2facts (by decide)⟩

/-- C2 (code behavior at the failing input): when the criteria eliminate
every row, the KPI and ranking aggregates do degrade to their identity
values, but the forecast computation faults — `model.fit` on the empty
design matrix raises `ValueError` (modelled as `none`), so not every
aggregate survives an empty filtered set. -/
theorem empty_filter_aggregates :
    total_sales (filtered c2crit c2facts) = 0 ∧
    total_orders (filtered c2crit c2facts) = 0 ∧
    avg_order_value (filtered c2crit c2facts) = 0 ∧
    total_customers (filtered c2crit c2facts) = 0 ∧
    new_customers c2crit (filtered c2crit c2facts) = 0 ∧
    top_customers (filtered c2crit c2facts) = [] ∧
    top_products (filtered c2crit c2facts) = [] ∧
    funnel_df (filtered c2crit c2facts) = [] ∧
    daily_sales (filtered c2crit c2facts) = [] ∧
    forecast (filtered c2crit c2facts) = none := by
  decide

/-- C4 (code behavior at the failing inputs): with exactly one distinct
date the code does not skip the forecast — it fits and emits a 30-point
constant prediction; with zero distinct dates the computation faults
(`none`, the unhandled `ValueError` of `model.fit`) instead of
surfacing a handled "insufficient data" condition. -/
theorem forecast_not_skipped :
    (daily_sales (filtered c4crit c4facts)).length = 1 ∧
    (forecast (filtered c4crit c4facts)).isSome = true ∧
    (forecast (filtered c4crit c4facts)).map List.length = some 30 ∧
    (forecast (filtered c4crit c4facts)).bind List.head? = some (1, 7) ∧
    (daily_sales (filtered c4empty c4facts)).length = 0 ∧
    forecast (filtered c4empty c4facts) = none := by
  norm_num [c4crit, c4empty, c4facts, filtered, dateMask, mkRow, daily_sales, forecast,
    forecastPoints, fitLinReg, minDay, sortBy', insBy, sumPrice, lastX, futureXs,
    interceptOf, slopeOf, xbarOf, ybarOf, sxxOf, sxyOf]

/-- C6 (code behavior): because line 96 groups the *filtered* frame,
whose rows all lie inside the window, the "new customers" KPI always
equals the distinct-customer KPI; at the concrete input, customer
`acme` with an order before the window start is still counted "new"
(code: 1), while the claim's "minimum order_date across all their rows"
reading counts nobody (0). -/
theorem new_customers_degenerate :
    (∀ (c : FilterCriteria) (df : List OrderLineFact),
        new_customers c (filtered c df) = total_customers (filtered c df)) ∧
    new_customers c6crit (filtered c6crit c6facts) = 1 ∧
    new_customers_claim c6crit c6facts = 0 := by
  refine ⟨?_, by decide, by decide⟩
  intro c df
  have hall : ∀ cst ∈ customersOf (filtered c df),
      decide (c.start_date ≤ minDay (datesOfCustomer (filtered c df) cst)) = true := by
    intro cst hcst
    have hmem : cst ∈ (filtered c df).map (fun r => r.customer) :=
      (List.dedup_sublist _).mem hcst
    obtain ⟨r, hr, hrc⟩ := List.mem_map.mp hmem
    have hrmem : r ∈ (filtered c df).filter (fun x => x.customer = cst) :=
      List.mem_filter.mpr ⟨hr, by simp [hrc]⟩
    have hne : datesOfCustomer (filtered c df) cst ≠ [] := by
      intro hnil
      rw [datesOfCustomer, List.map_eq_nil_iff] at hnil
      rw [hnil] at hrmem
      simp at hrmem
    have hge : ∀ d ∈ datesOfCustomer (filtered c df) cst, c.start_date ≤ d := by
      intro d hd
      obtain ⟨x, hx, hxd⟩ := List.mem_map.mp hd
      have := start_le_of_mem_filtered (List.mem_filter.mp hx).1
      omega
    exact decide_eq_true (minDay_ge hne hge)
  rw [new_customers, List.filter_eq_self.mpr hall]
  rfl

/-- Membership in an insertion. -/
theorem mem_insBy {α : Type} (le : α → α → Bool) (x : α) :
    ∀ {l : List α} {z : α}, z ∈ insBy le x l ↔ z = x ∨ z ∈ l := by
  intro l
  induction l with
  | nil => intro z; simp [insBy]
  | cons y ys ih =>
    intro z
    simp only [insBy]
    cases hxy : le x y <;> simp [hxy, ih] <;> tauto

/-- Insertion permutes consing. -/
theorem insBy_perm {α : Type} (le : α → α → Bool) (x : α) :
    ∀ l : List α, (insBy le x l).Perm (x :: l) := by
  intro l
  induction l with
  | nil => simp [insBy]
  | cons y ys ih =>
    simp only [insBy]
    cases hxy : le x y
    · simp only [Bool.false_eq_true, if_false]
      exact (ih.cons y).trans (List.Perm.swap x y ys)
    · simp

/-- The insertion sort permutes its input. -/
theorem sortBy'_perm {α : Type} (le : α → α → Bool) :
    ∀ l : List α, (sortBy' le l).Perm l := by
  intro l
  induction l with
  | nil => simp [sortBy']
  | cons x xs ih => exact (insBy_perm le x (sortBy' le xs)).trans (ih.cons x)

/-- Inserting into a `le`-sorted list keeps it sorted, for a total,
transitive boolean comparison. -/
theorem insBy_pairwise_le {α : Type} {le : α → α → Bool}
    (htot : ∀ a b, le a b = false → le b a = true)
    (htrans : ∀ a b c, le a b = true → le b c = true → le a c = true)
    (x : α) : ∀ {l : List α}, l.Pairwise (fun a b => le a b = true) →
      (insBy le x l).Pairwise (fun a b => le a b = true) := by
  intro l
  induction l with
  | nil => intro _; simp [insBy]
  | cons y ys ih =>
    intro hp
    rw [List.pairwise_cons] at hp
    obtain ⟨hy, hys⟩ := hp
    simp only [insBy]
    cases hxy : le x y
    · simp only [Bool.false_eq_true, if_false]
      rw [List.pairwise_cons]
      refine ⟨?_, ih hys⟩
      intro z hz
      rcases (mem_insBy le x).mp hz with heq | hz'
      · rw [heq]; exact htot x y hxy
      · exact hy z hz'
    · simp only [if_true]
      rw [List.pairwise_cons]
      refine ⟨?_, List.pairwise_cons.mpr ⟨hy, hys⟩⟩
      intro z hz
      rcases List.mem_cons.mp hz with rfl | hz'
      · exact hxy
      · exact htrans x y z hxy (hy z hz')

/-- The insertion sort sorts, for a total, transitive boolean
comparison. -/
theorem sortBy'_pairwise_le {α : Type} {le : α → α → Bool}
    (htot : ∀ a b, le a b = false → le b a = true)
    (htrans : ∀ a b c, le a b = true → le b c = true → le a c = true) :
    ∀ l : List α, (sortBy' le l).Pairwise (fun a b => le a b = true) := by
  intro l
  induction l with
  | nil => simp [sortBy']
  | cons x xs ih => exact insBy_pairwise_le htot htrans x ih

/-- `strLe` is total. -/
theorem strLe_total (a b : String) (h : strLe a b = false) : strLe b a = true := by
  simp only [strLe, decide_eq_false_iff_not] at h
  exact decide_eq_true (le_of_not_le h)

/-- `strLe` is transitive. -/
theorem strLe_trans (a b c : String) (hab : strLe a b = true)
    (hbc : strLe b c = true) : strLe a c = true := by
  simp only [strLe, decide_eq_true_eq] at *
  exact le_trans hab hbc

/-- Sorting preserves `Nodup`. -/
theorem sortBy'_nodup_aux {l : List String} (h : l.Nodup) :
    (sortBy' strLe l).Nodup :=
  ((sortBy'_perm strLe l).nodup_iff).mpr h

/-- The grouped sums carry strictly ascending keys: `groupby` emits one
group per distinct key, keys sorted. -/
theorem groupSum_keys_pairwise (key : OrderLineFact → String)
    (rows : List OrderLineFact) :
    (groupSumBy key rows).Pairwise (fun p q => p.1 < q.1) := by
  unfold groupSumBy
  rw [List.pairwise_map]
  have hle := sortBy'_pairwise_le strLe_total strLe_trans ((rows.map key).dedup)
  have hne : (sortBy' strLe ((rows.map key).dedup)).Pairwise (fun a b => a ≠ b) :=
    (sortBy'_nodup_aux (List.nodup_dedup _))
  exact (hle.and hne).imp (fun h => by
    simp only [strLe, decide_eq_true_eq] at h
    exact lt_of_le_of_ne h.1 h.2)

/-- Inserting an element whose key precedes every key of a
`tieOrder`-sorted list keeps the list `tieOrder`-sorted. -/
theorem insBy_tie {x : String × ℚ} :
    ∀ {t : List (String × ℚ)}, t.Pairwise tieOrder → (∀ y ∈ t, x.1 < y.1) →
      (insBy (fun p q => decide (q.2 ≤ p.2)) x t).Pairwise tieOrder := by
  intro t
  induction t with
  | nil => intro _ _; simp [insBy]
  | cons y ys ih =>
    intro hp hkey
    rw [List.pairwise_cons] at hp
    obtain ⟨hy, hys⟩ := hp
    simp only [insBy]
    by_cases hle : y.2 ≤ x.2
    case neg =>
      rw [if_neg (by simpa using hle)]
      have hlt : x.2 < y.2 := lt_of_not_le hle
      rw [List.pairwise_cons]
      refine ⟨?_, ih hys (fun z hz => hkey z (List.mem_cons_of_mem y hz))⟩
      intro z hz
      rcases (mem_insBy _ x).mp hz with heq | hz'
      · subst heq; exact Or.inl hlt
      · exact hy z hz'
    case pos =>
      rw [if_pos (by simpa using hle)]
      rw [List.pairwise_cons]
      refine ⟨?_, List.pairwise_cons.mpr ⟨hy, hys⟩⟩
      intro z hz
      rcases List.mem_cons.mp hz with heq0 | hz'
      · rw [heq0]
        rcases lt_or_eq_of_le hle with h | h
        · exact Or.inl h
        · exact Or.inr ⟨h.symm, hkey y (by simp)⟩
      · rcases hy z hz' with hlt | ⟨heq, _⟩
        · exact Or.inl (lt_of_lt_of_le hlt hle)
        · rcases lt_or_eq_of_le hle with h | h
          · exact Or.inl (heq ▸ h)
          · exact Or.inr ⟨by rw [← h, heq], hkey z (List.mem_cons_of_mem y hz')⟩

/-- The descending value sort of a strictly-ascending-key list is
sorted by value descending with ties in ascending key order. -/
theorem sortValsDesc_pairwise :
    ∀ {l : List (String × ℚ)}, l.Pairwise (fun p q => p.1 < q.1) →
      (sortValsDesc l).Pairwise tieOrder := by
  intro l
  induction l with
  | nil => intro _; simp [sortValsDesc, sortBy']
  | cons x xs ih =>
    intro hp
    rw [List.pairwise_cons] at hp
    obtain ⟨hx, hxs⟩ := hp
    exact insBy_tie (ih hxs) (fun y hy => hx y ((sortBy'_perm _ xs).subset hy))

/-- C7 counterexample: with customer `"b"` (sum 5) encountered before
customer `"a"` (sum 5), the code's ranking lists `a` before `b`
(ascending key order from `groupby`), while the claim's
encounter-order tie-breaking would list `b` before `a`. -/
theorem top_ties_counterexample :
    top_customers c7rows = [("a", 5), ("b", 5)] ∧
    claimTopBy (fun r => r.customer) c7rows = [("b", 5), ("a", 5)] ∧
    top_customers c7rows ≠ claimTopBy (fun r => r.customer) c7rows := by
  norm_num +decide [top_customers, claimTopBy, groupSumBy, sortValsDesc, sortBy', insBy,
    strLe, sumPrice, c7rows, mkRow, List.filter_cons, List.filter_nil]

/-- C7 (amended): each top-10 ranking groups rows by its key, sums
`line_total` per group, sorts groups descending by sum and takes the
first 10; the result is a prefix of a permutation of the group sums
ordered by descending sum with ties in **ascending key order** (the
grouping step emits groups sorted by key), not in original encounter
order. -/
theorem top_rankings_sorted (rows : List OrderLineFact) :
    ((sortValsDesc (groupSumBy (fun r => r.customer) rows)).Perm
        (groupSumBy (fun r => r.customer) rows) ∧
      (sortValsDesc (groupSumBy (fun r => r.customer) rows)).Pairwise tieOrder ∧
      top_customers rows = (sortValsDesc (groupSumBy (fun r => r.customer) rows)).take 10) ∧
    ((sortValsDesc (groupSumBy (fun r => r.product) rows)).Perm
        (groupSumBy (fun r => r.product) rows) ∧
      (sortValsDesc (groupSumBy (fun r => r.product) rows)).Pairwise tieOrder ∧
      top_products rows = (sortValsDesc (groupSumBy (fun r => r.product) rows)).take 10) :=
  ⟨⟨sortBy'_perm _ _, sortValsDesc_pairwise (groupSum_keys_pairwise _ _), rfl⟩,
   ⟨sortBy'_perm _ _, sortValsDesc_pairwise (groupSum_keys_pairwise _ _), rfl⟩⟩

/-- Sums split over pointwise addition. -/
theorem sum_map_add {α : Type} (l : List α) (f g : α → ℚ) :
    (l.map (fun p => f p + g p)).sum = (l.map f).sum + (l.map g).sum := by
  induction l with
  | nil => simp
  | cons a t ih => simp only [List.map_cons, List.sum_cons, ih]; ring

/-- Scalars pull out of sums. -/
theorem sum_map_smul {α : Type} (l : List α) (c : ℚ) (f : α → ℚ) :
    (l.map (fun p => c * f p)).sum = c * (l.map f).sum := by
  induction l with
  | nil => simp
  | cons a t ih => simp only [List.map_cons, List.sum_cons, ih]; ring

/-- Sum of a polynomial expression in the coordinates, in terms of the
raw moment sums. -/
theorem sum_poly (l : List (ℚ × ℚ)) (c0 c1 c2 c3 c4 : ℚ) :
    (l.map (fun p => c0 + c1 * p.1 + c2 * p.2 + c3 * p.1 ^ 2 + c4 * (p.1 * p.2))).sum
      = l.length * c0 + c1 * (l.map Prod.fst).sum + c2 * (l.map Prod.snd).sum
        + c3 * (l.map (fun p => p.1 ^ 2)).sum + c4 * (l.map (fun p => p.1 * p.2)).sum := by
  induction l with
  | nil => simp
  | cons a t ih =>
    simp only [List.map_cons, List.sum_cons, ih, List.length_cons]
    push_cast
    ring

/-- A sum of squares is nonnegative. -/
theorem sum_sq_nonneg {α : Type} (l : List α) (f : α → ℚ) :
    0 ≤ (l.map (fun p => f p ^ 2)).sum := by
  apply List.sum_nonneg
  intro x hx
  obtain ⟨p, _, rfl⟩ := List.mem_map.mp hx
  exact sq_nonneg _

/-- A vanishing sum of squares has vanishing terms. -/
theorem sum_sq_eq_zero {α : Type} {l : List α} {f : α → ℚ}
    (h : (l.map (fun p => f p ^ 2)).sum = 0) : ∀ p ∈ l, f p = 0 := by
  induction l with
  | nil => simp
  | cons a t ih =>
    simp only [List.map_cons, List.sum_cons] at h
    have h1 : 0 ≤ f a ^ 2 := sq_nonneg _
    have h2 : 0 ≤ (t.map (fun p => f p ^ 2)).sum := sum_sq_nonneg t f
    have ha : f a ^ 2 = 0 := by linarith
    have ht : (t.map (fun p => f p ^ 2)).sum = 0 := by linarith
    intro p hp
    rcases List.mem_cons.mp hp with heq | hmem
    · rw [heq]
      exact (pow_eq_zero_iff (by norm_num)).mp ha
    · exact ih ht p hmem

/-- The fitted residuals sum to zero (first normal equation). -/
theorem resid_sum_zero {pts : List (ℚ × ℚ)} (hne : pts ≠ []) :
    (pts.map (fun p => p.2 - (interceptOf pts + slopeOf pts * p.1))).sum = 0 := by
  have hn : ((pts.length : ℚ)) ≠ 0 := by
    exact_mod_cast Nat.pos_iff_ne_zero.mp (List.length_pos.mpr hne)
  have hrw : (fun p : ℚ × ℚ => p.2 - (interceptOf pts + slopeOf pts * p.1))
      = fun p => (-(interceptOf pts)) + (-(slopeOf pts)) * p.1 + 1 * p.2
          + 0 * p.1 ^ 2 + 0 * (p.1 * p.2) := by
    funext p; ring
  rw [hrw, sum_poly]
  simp only [interceptOf, xbarOf, ybarOf]
  field_simp
  ring

/-- Expansion of the centered square sum. -/
theorem sxx_expand {pts : List (ℚ × ℚ)} (hne : pts ≠ []) :
    sxxOf pts = (pts.map (fun p => p.1 ^ 2)).sum
      - (pts.map Prod.fst).sum ^ 2 / pts.length := by
  have hn : ((pts.length : ℚ)) ≠ 0 := by
    exact_mod_cast Nat.pos_iff_ne_zero.mp (List.length_pos.mpr hne)
  have hrw : (fun p : ℚ × ℚ => (p.1 - xbarOf pts) ^ 2)
      = fun p => (xbarOf pts ^ 2) + (-(2 * xbarOf pts)) * p.1 + 0 * p.2
          + 1 * p.1 ^ 2 + 0 * (p.1 * p.2) := by
    funext p; ring
  rw [sxxOf, hrw, sum_poly]
  simp only [xbarOf]
  field_simp
  ring

/-- Expansion of the centered cross sum. -/
theorem sxy_expand {pts : List (ℚ × ℚ)} (hne : pts ≠ []) :
    sxyOf pts = (pts.map (fun p => p.1 * p.2)).sum
      - (pts.map Prod.fst).sum * (pts.map Prod.snd).sum / pts.length := by
  have hn : ((pts.length : ℚ)) ≠ 0 := by
    exact_mod_cast Nat.pos_iff_ne_zero.mp (List.length_pos.mpr hne)
  have hrw : (fun p : ℚ × ℚ => (p.1 - xbarOf pts) * (p.2 - ybarOf pts))
      = fun p => (xbarOf pts * ybarOf pts) + (-(ybarOf pts)) * p.1
          + (-(xbarOf pts)) * p.2 + 0 * p.1 ^ 2 + 1 * (p.1 * p.2) := by
    funext p; ring
  rw [sxyOf, hrw, sum_poly]
  simp only [xbarOf, ybarOf]
  field_simp
  ring

/-- The x-weighted residual sum in centered terms. -/
theorem resid_xsum {pts : List (ℚ × ℚ)} (hne : pts ≠ []) :
    (pts.map (fun p => p.1 * (p.2 - (interceptOf pts + slopeOf pts * p.1)))).sum
      = sxyOf pts - slopeOf pts * sxxOf pts := by
  have hn : ((pts.length : ℚ)) ≠ 0 := by
    exact_mod_cast Nat.pos_iff_ne_zero.mp (List.length_pos.mpr hne)
  have hrw : (fun p : ℚ × ℚ => p.1 * (p.2 - (interceptOf pts + slopeOf pts * p.1)))
      = fun p => 0 + (-(interceptOf pts)) * p.1 + 0 * p.2
          + (-(slopeOf pts)) * p.1 ^ 2 + 1 * (p.1 * p.2) := by
    funext p; ring
  rw [hrw, sum_poly, sxx_expand hne, sxy_expand hne]
  simp only [interceptOf, xbarOf, ybarOf]
  field_simp
  ring

/-- The x-weighted residuals sum to zero (second normal equation). -/
theorem resid_xsum_zero {pts : List (ℚ × ℚ)} (hne : pts ≠ []) :
    (pts.map (fun p => p.1 * (p.2 - (interceptOf pts + slopeOf pts * p.1)))).sum = 0 := by
  rw [resid_xsum hne]
  by_cases hsxx : sxxOf pts = 0
  · have hx : ∀ p ∈ pts, p.1 - xbarOf pts = 0 :=
      sum_sq_eq_zero (f := fun p : ℚ × ℚ => p.1 - xbarOf pts) (by simpa [sxxOf] using hsxx)
    have hzero : sxyOf pts = 0 := by
      rw [sxyOf]
      apply List.sum_eq_zero
      intro q hq
      obtain ⟨p, hp, rfl⟩ := List.mem_map.mp hq
      rw [hx p hp, zero_mul]
    simp [slopeOf, hsxx, hzero]
  · simp only [slopeOf, hsxx, if_false]
    rw [div_mul_cancel₀ _ hsxx]
    ring

/-- The fitted line minimizes the residual sum of squares among all
lines: least-squares optimality of `fit`. -/
theorem sse_optimal {pts : List (ℚ × ℚ)} (hne : pts ≠ []) (a' b' : ℚ) :
    sse pts (interceptOf pts) (slopeOf pts) ≤ sse pts a' b' := by
  have h1 := resid_sum_zero hne
  have h2 := resid_xsum_zero hne
  set a := interceptOf pts with hadef
  set b := slopeOf pts with hbdef
  have hfun : (fun p : ℚ × ℚ => (p.2 - (a' + b' * p.1)) ^ 2)
      = fun p => ((p.2 - (a + b * p.1)) ^ 2
          + ((2 * (a - a')) * (p.2 - (a + b * p.1))
             + (2 * (b - b')) * (p.1 * (p.2 - (a + b * p.1)))))
          + ((a - a') + (b - b') * p.1) ^ 2 := by
    funext p; ring
  have hsum : sse pts a' b'
      = sse pts a b + (pts.map (fun p => ((a - a') + (b - b') * p.1) ^ 2)).sum := by
    rw [sse, hfun, sum_map_add, sum_map_add, sum_map_add, sum_map_smul, sum_map_smul,
      h1, h2, sse]
    ring
  rw [hsum]
  have hnn := sum_sq_nonneg pts (fun p => (a - a') + (b - b') * p.1)
  linarith

/-- C3: for every filtered fact set with at least two distinct order
dates, the forecast fits the least-squares line `sales = a + b·day_index`
(the fitted coefficients minimize the residual sum of squares over all
lines), where each distinct date's `day_index` is its integer day offset
from the minimum order date (0-based, calendar gaps preserved), and it
predicts exactly the 30 integer day indices immediately following the
last observed index. -/
theorem forecast_is_ols (df : List OrderLineFact) (c : FilterCriteria)
    (h2 : 2 ≤ (daily_sales (filtered c df)).length) :
    ∃ a b, fitLinReg (forecastPoints (filtered c df)) = some (a, b) ∧
      (∀ a' b', sse (forecastPoints (filtered c df)) a b
          ≤ sse (forecastPoints (filtered c df)) a' b') ∧
      forecastPoints (filtered c df)
        = (daily_sales (filtered c df)).map
            (fun p => (((p.1 - minDay ((daily_sales (filtered c df)).map Prod.fst) : Int) : ℚ), p.2)) ∧
      forecast (filtered c df)
        = some ((futureXs (lastX (forecastPoints (filtered c df))) 30).map
            (fun x => (x, interceptOf (forecastPoints (filtered c df))
              + slopeOf (forecastPoints (filtered c df)) * x))) := by
  have hlen : (forecastPoints (filtered c df)).length = (daily_sales (filtered c df)).length := by
    simp [forecastPoints]
  have hne : forecastPoints (filtered c df) ≠ [] := by
    intro h
    rw [h] at hlen
    simp at hlen
    omega
  have hfit : fitLinReg (forecastPoints (filtered c df))
      = some (interceptOf (forecastPoints (filtered c df)),
              slopeOf (forecastPoints (filtered c df))) := by
    cases hpts : forecastPoints (filtered c df) with
    | nil => exact absurd hpts hne
    | cons p ps => rfl
  refine ⟨_, _, hfit, fun a' b' => sse_optimal hne a' b', rfl, ?_⟩
  rw [forecast, hfit]

/-- Witness for C3: the filtered daily sums are `[(day 0, 100),
(day 1, 200)]`; the fitted line is `a = 100`, `b = 100`, the first
prediction is `300` at day index `2`, 30 days are predicted, and the
fitted line is squared-error optimal. -/
theorem forecast_is_ols_witness :
    2 ≤ (daily_sales (filtered w3crit w3facts)).length ∧
    daily_sales (filtered w3crit w3facts) = [(0, 100), (1, 200)] ∧
    fitLinReg (forecastPoints (filtered w3crit w3facts)) = some (100, 100) ∧
    (forecast (filtered w3crit w3facts)).bind List.head? = some (2, 300) ∧
    (forecast (filtered w3crit w3facts)).map List.length = some 30 ∧
    ∀ a' b', sse (forecastPoints (filtered w3crit w3facts)) 100 100
        ≤ sse (forecastPoints (filtered w3crit w3facts)) a' b' := by
  have h2 : 2 ≤ (daily_sales (filtered w3crit w3facts)).length := by decide
  obtain ⟨a, b, hfit, hopt, _, _⟩ := forecast_is_ols w3facts w3crit h2
  have hfit100 : fitLinReg (forecastPoints (filtered w3crit w3facts)) = some (100, 100) := by
    norm_num +decide [fitLinReg, forecastPoints, daily_sales, filtered, dateMask, w3facts,
      w3crit, mkRow, sortBy', insBy, minDay, sumPrice, interceptOf, slopeOf, xbarOf,
      ybarOf, sxxOf, sxyOf, List.filter_cons, List.filter_nil]
  rw [hfit100] at hfit
  have ha : a = 100 := by
    have := (Option.some.inj hfit.symm)
    exact congrArg Prod.fst this
  have hb : b = 100 := by
    have := (Option.some.inj hfit.symm)
    exact congrArg Prod.snd this
  refine ⟨h2, ?_, hfit100, ?_, ?_, ?_⟩
  · norm_num +decide [daily_sales, filtered, dateMask, w3facts, w3crit, mkRow, sortBy',
      insBy, sumPrice, List.filter_cons, List.filter_nil]
  · norm_num +decide [forecast, fitLinReg, forecastPoints, daily_sales, filtered,
      dateMask, w3facts, w3crit, mkRow, sortBy', insBy, minDay, sumPrice, interceptOf,
      slopeOf, xbarOf, ybarOf, sxxOf, sxyOf, lastX, futureXs, List.filter_cons,
      List.filter_nil]
  · norm_num +decide [forecast, fitLinReg, forecastPoints, daily_sales, filtered,
      dateMask, w3facts, w3crit, mkRow, sortBy', insBy, minDay, sumPrice, interceptOf,
      slopeOf, xbarOf, ybarOf, sxxOf, sxyOf, lastX, futureXs, List.filter_cons,
      List.filter_nil]
  · subst ha
    subst hb
    exact hopt

/-- C8: the funnel counts distinct `order_id` per state and always emits
its rows in the fixed stage sequence `draft, sent, sale, done, cancel`
restricted to the states present (absent states omitted, not
zero-filled); in particular a set with states `{sale, draft}` yields
`[draft, sale]`. -/
theorem funnel_stage_ordered :
    (∀ rows : List OrderLineFact, funnel_df rows = funnel_claim rows) ∧
    funnel_df c8rows = [(OState.draft, 1), (OState.sale, 1)] := by
  constructor
  · intro rows
    unfold funnel_df funnel_claim funnel_groups statesAlpha stage_order
    cases h1 : presentState rows .draft <;> cases h2 : presentState rows .sent <;>
      cases h3 : presentState rows .sale <;> cases h4 : presentState rows .done <;>
      cases h5 : presentState rows .cancel <;>
      simp [h1, h2, h3, h4, h5, sortBy', insBy, stageRank]
  · decide

/-- An unquoted field reads back exactly, stopping at the delimiter. -/
theorem parseUnquoted_spec :
    ∀ (c rest : List Char), (∀ ch ∈ c, ch ≠ ',' ∧ ch ≠ '\n') →
      (rest = [] ∨ (∃ r, rest = ',' :: r) ∨ (∃ r, rest = '\n' :: r)) →
      parseUnquoted (c ++ rest) = (c, rest) := by
  intro c
  induction c with
  | nil =>
    intro rest _ hrest
    rcases hrest with rfl | ⟨r, rfl⟩ | ⟨r, rfl⟩
    · rfl
    · simp [parseUnquoted]
    · simp [parseUnquoted]
  | cons ch cs ih =>
    intro rest hc hrest
    have hch := hc ch (by simp)
    simp only [List.cons_append, parseUnquoted, List.append_eq]
    rw [if_neg (by tauto), ih rest (fun x hx => hc x (by simp [hx])) hrest]

/-- A quoted field body reads back exactly: doubled quotes collapse and
the first undoubled quote closes the field. -/
theorem parseQuoted_spec :
    ∀ (c rest : List Char), rest.head? ≠ some '"' →
      parseQuoted (escQ c ++ '"' :: rest) = some (c, rest) := by
  intro c
  induction c with
  | nil =>
    intro rest h
    cases rest with
    | nil => rfl
    | cons r0 rtail =>
      have hr0 : r0 ≠ '"' := by simpa using h
      simp [escQ, parseQuoted, hr0]
  | cons ch cs ih =>
    intro rest h
    by_cases hch : ch = '"'
    · subst hch
      simp [escQ, parseQuoted, ih rest h]
    · rw [show escQ (ch :: cs) = ch :: escQ cs from by simp [escQ, hch]]
      rw [List.cons_append, parseQuoted.eq_def]
      simp only [if_neg hch]
      rw [ih rest h]
      rfl

/-- A rendered field reads back exactly when followed by a delimiter,
a line break, or the end of input. -/
theorem parseCell_spec (c rest : List Char)
    (hrest : rest = [] ∨ (∃ r, rest = ',' :: r) ∨ (∃ r, rest = '\n' :: r)) :
    parseCell (renderCell c ++ rest) = some (c, rest) := by
  unfold renderCell
  by_cases hq : needsQuote c
  · rw [if_pos hq]
    have hshape : ('"' :: (escQ c ++ ['"'])) ++ rest = '"' :: (escQ c ++ '"' :: rest) := by
      simp
    rw [hshape]
    have hhead : rest.head? ≠ some '"' := by
      rcases hrest with rfl | ⟨r, rfl⟩ | ⟨r, rfl⟩ <;> simp
    simp only [parseCell, if_pos rfl]
    exact parseQuoted_spec c rest hhead
  · rw [if_neg hq]
    have hnostop : ∀ ch ∈ c, ch ≠ ',' ∧ ch ≠ '\n' := by
      intro ch hch
      simp only [needsQuote, List.any_eq_true, Bool.or_eq_true, decide_eq_true_eq,
        not_exists, not_or] at hq
      push_neg at hq
      have := hq ch hch
      tauto
    cases c with
    | nil =>
      rcases hrest with rfl | ⟨r, rfl⟩ | ⟨r, rfl⟩
      · rfl
      · simp [parseCell, parseUnquoted]
      · simp [parseCell, parseUnquoted]
    | cons ch cs =>
      have hch : ch ≠ '"' := by
        intro hx
        apply absurd hq
        simp [needsQuote, hx, List.any_cons]
      simp only [List.cons_append, parseCell]
      rw [if_neg hch]
      have hpu := parseUnquoted_spec (ch :: cs) rest hnostop hrest
      simp only [List.cons_append] at hpu
      rw [hpu]

/-- A rendered line of at least one field reads back exactly, consuming
its terminating newline, with one unit of fuel per field. -/
theorem parseRowF_spec :
    ∀ (cells : List (List Char)) (fuel : Nat) (rest : List Char),
      cells ≠ [] → cells.length ≤ fuel →
      parseRowF fuel (renderRow cells ++ '\n' :: rest) = some (cells, rest) := by
  intro cells
  induction cells with
  | nil => intro _ _ h _; exact absurd rfl h
  | cons c cs ih =>
    intro fuel rest _ hfuel
    cases cs with
    | nil =>
      cases fuel with
      | zero => simp at hfuel
      | succ f =>
        show parseRowF (f + 1) (renderCell c ++ '\n' :: rest) = some ([c], rest)
        unfold parseRowF
        rw [parseCell_spec c ('\n' :: rest) (Or.inr (Or.inr ⟨rest, rfl⟩))]
        rfl
    | cons c2 cs2 =>
      cases fuel with
      | zero => simp at hfuel
      | succ f =>
        have hshape : renderRow (c :: c2 :: cs2) ++ '\n' :: rest
            = renderCell c ++ (',' :: (renderRow (c2 :: cs2) ++ '\n' :: rest)) := by
          simp [renderRow]
        rw [hshape]
        unfold parseRowF
        rw [parseCell_spec c _ (Or.inr (Or.inl ⟨_, rfl⟩))]
        have hf : (c2 :: cs2).length ≤ f := by
          simp only [List.length_cons] at hfuel ⊢
          omega
        show Option.map (fun p => (c :: p.1, p.2))
            (parseRowF f (renderRow (c2 :: cs2) ++ '\n' :: rest))
          = some (c :: c2 :: cs2, rest)
        rw [ih f rest (by simp) hf]
        rfl

/-- A rendered line is at most one character shorter than its field
count. -/
theorem renderRow_length (cells : List (List Char)) :
    cells.length ≤ (renderRow cells).length + 1 := by
  induction cells with
  | nil => simp [renderRow]
  | cons c cs ih =>
    cases cs with
    | nil => simp [renderRow]
    | cons c2 cs2 =>
      simp only [renderRow, List.length_append, List.length_cons] at ih ⊢
      omega

/-- A rendered file reads back exactly, given fuel at least its length
and no empty lines. -/
theorem parseRowsF_spec :
    ∀ (rows : List (List (List Char))) (fuel : Nat),
      (∀ r ∈ rows, r ≠ []) → (renderCsv rows).length ≤ fuel →
      parseRowsF fuel (renderCsv rows) = some rows := by
  intro rows
  induction rows with
  | nil =>
    intro fuel _ _
    cases fuel <;> rfl
  | cons r rs ih =>
    intro fuel hne hfuel
    have hlen : (renderCsv (r :: rs)).length
        = (renderRow r).length + 1 + (renderCsv rs).length := by
      simp [renderCsv]
      omega
    cases fuel with
    | zero =>
      rw [hlen] at hfuel
      omega
    | succ f =>
      have hsplit : renderCsv (r :: rs) = renderRow r ++ '\n' :: renderCsv rs := rfl
      cases hform : renderCsv (r :: rs) with
      | nil =>
        rw [hsplit] at hform
        simp at hform
      | cons x xs =>
        have hbody : parseRowsF (f + 1) (x :: xs)
            = match parseRowF (f + 1) (x :: xs) with
              | none => none
              | some (cells, rest) =>
                (parseRowsF f rest).map (fun rows => cells :: rows) := rfl
        rw [hbody, ← hform, hsplit]
        have hcells : r.length ≤ f + 1 := by
          have h1 := renderRow_length r
          rw [hlen] at hfuel
          omega
        rw [parseRowF_spec r (f + 1) (renderCsv rs) (hne r (by simp)) hcells]
        have hrs : (renderCsv rs).length ≤ f := by
          rw [hlen] at hfuel
          omega
        show Option.map (fun rows => r :: rows) (parseRowsF f (renderCsv rs))
          = some (r :: rs)
        rw [ih f (fun q hq => hne q (by simp [hq])) hrs]
        rfl

/-- Parsing inverts rendering on files with no empty lines. -/
theorem parseCsv_renderCsv (rows : List (List (List Char)))
    (h : ∀ r ∈ rows, r ≠ []) : parseCsv (renderCsv rows) = some rows :=
  parseRowsF_spec rows _ h le_rfl

/-- C9: exporting the filtered fact set to the comma-separated format
(header row in `OrderLineFact` field order, no index column) and
re-parsing reproduces exactly the header and every row's serialized
field values in order — in particular the same row count. -/
theorem csv_round_trip (c : FilterCriteria) (df : List OrderLineFact) :
    parseCsv (to_csv (filtered c df))
      = some (headerCells :: (filtered c df).map csvCells) ∧
    (parseCsv (to_csv (filtered c df))).map List.length
      = some ((filtered c df).length + 1) := by
  have hmain : parseCsv (to_csv (filtered c df))
      = some (headerCells :: (filtered c df).map csvCells) := by
    unfold to_csv
    apply parseCsv_renderCsv
    intro r hr
    rcases List.mem_cons.mp hr with heq | hmem
    · rw [heq]; simp [headerCells]
    · obtain ⟨x, _, rfl⟩ := List.mem_map.mp hmem
      simp [csvCells]
  refine ⟨hmain, ?_⟩
  rw [hmain]
  simp

end SaleDashboard
